import Mathlib

/-!
Verification of the TNM serviceability checker (`app.py`) against its
specification.  The script's pure logic is shallowly embedded here:
Python strings are modelled as `String` (lists of characters), the pandas
data frame as a list of association-list rows, and each helper of the
source (`_normalize_header`, `_guess_col`, `_resolve_pincode_col`,
`_resolve_service_col`, `_digits_only`, `_variants_of_sheet_url`, the
loading pipeline of `load_data_with_fallbacks` after a CSV body has been
fetched, and the button-press check logic) as a Lean function.

Modelling notes, fixed throughout:
* character classes (`str.strip`, regex `\s`, `\D`, `str.lower`) are
  modelled over their ASCII behaviour, which is the behaviour exercised by
  every header, cell value and URL this program manipulates;
* `urllib` parsing is modelled for URLs without fragments and without
  percent-escapes that `parse_qsl`/`urlencode` would rewrite — the
  published-sheet URLs the script is written for contain neither;
* the network fetch itself (an external effect) is out of scope: the
  loader is modelled from the point where a CSV body has been parsed into
  a header list and a list of string rows.
-/

/-- Whitespace as recognised by `str.strip` and the regex `\s` (ASCII part):
space, tab, newline, carriage return, vertical tab, form feed. -/
def pySpace (c : Char) : Bool :=
  c == ' ' || c == '\t' || c == '\n' || c == '\r' || c == '\x0b' || c == '\x0c'

/-- The character class `[a-z0-9 ]` of the final regex in `_normalize_header`. -/
def allowedChar (c : Char) : Bool :=
  decide ((97 ≤ c.toNat ∧ c.toNat ≤ 122) ∨ (48 ≤ c.toNat ∧ c.toNat ≤ 57) ∨ c.toNat = 32)

/-- Model of `str.lower`, character by character (ASCII range). -/
def pyLowerChar (c : Char) : Char :=
  if 65 ≤ c.toNat ∧ c.toNat ≤ 90 then Char.ofNat (c.toNat + 32) else c

/-- The regex class `\d` (ASCII part), used through `\D` in `_digits_only`. -/
def pyIsDigit (c : Char) : Bool :=
  decide (48 ≤ c.toNat ∧ c.toNat ≤ 57)

/-- Remove trailing `pySpace` characters (the right half of `str.strip`). -/
def rstripList : List Char → List Char
  | [] => []
  | c :: rest =>
    let r := rstripList rest
    if r = [] ∧ pySpace c = true then [] else c :: r

/-- Model of `str.strip`: drop leading and trailing whitespace. -/
def stripList (l : List Char) : List Char :=
  rstripList (l.dropWhile pySpace)

/-- Model of `re.sub(r"\s+", " ", ·)`: replace every maximal whitespace run by one space. -/
def collapseWs : List Char → List Char
  | [] => []
  | a :: rest =>
    match rest with
    | [] => [if pySpace a then ' ' else a]
    | b :: _ =>
      if pySpace a ∧ pySpace b then collapseWs rest
      else (if pySpace a then ' ' else a) :: collapseWs rest

/-- Character-list body of `_normalize_header` (`app.py`, lines 53-58):
strip, lowercase, delete the BOM, underscores to spaces, collapse
whitespace runs, keep only `[a-z0-9 ]`. -/
def normList (l : List Char) : List Char :=
  let s1 := stripList l
  let s2 := s1.map pyLowerChar
  let s3 := s2.filter (fun c => !(c == '\uFEFF'))
  let s4 := s3.map (fun c => if c == '_' then ' ' else c)
  let s5 := collapseWs s4
  s5.filter allowedChar

/-- Embedding of `_normalize_header` of `app.py`. -/
def _normalize_header (s : String) : String :=
  String.mk (normList s.data)

/-- Model of `str.strip` on strings. -/
def pyStrip (s : String) : String :=
  String.mk (stripList s.data)

/-- Model of `str.lower` on strings (ASCII range). -/
def pyLowerStr (s : String) : String :=
  String.mk (s.data.map pyLowerChar)

/-- The cell preprocessing `str(...).strip().lower()` of the check logic. -/
def stripLower (s : String) : String :=
  pyLowerStr (pyStrip s)

/-- Embedding of `_digits_only` of `app.py`: `re.sub(r"\D", "", s)`. -/
def _digits_only (s : String) : String :=
  String.mk (s.data.filter pyIsDigit)

/-- Does the second list start with the first one (helper for substring tests). -/
def startsWithList : List Char → List Char → Bool
  | [], _ => true
  | _ :: _, [] => false
  | a :: as, b :: bs => a == b && startsWithList as bs

/-- Substring occurrence on character lists (Python's `tok in s` on strings). -/
def containsSub (t : List Char) : List Char → Bool
  | [] => t.isEmpty
  | c :: rest => startsWithList t (c :: rest) || containsSub t rest

/-- Python's substring test `t in s`. -/
def pyIn (t s : String) : Bool :=
  containsSub t.data s.data

/-- The list `PINCODE_SYNONYMS` of `app.py`, in source order. -/
def PINCODE_SYNONYMS : List String :=
  ["pincode", "pin code", "pin", "postal code", "postcode", "zip", "zip code"]

/-- The first `for` loop of `_guess_col`: first target present in `cols`. -/
def guessExact (cols : List String) : List String → Option String
  | [] => none
  | t :: ts => if cols.contains t then some t else guessExact cols ts

/-- The second `for` loop of `_guess_col`: first column containing every token. -/
def guessFuzzy (tokens : List String) : List String → Option String
  | [] => none
  | c :: cs => if tokens.all (fun tok => pyIn tok c) then some c else guessFuzzy tokens cs

/-- Embedding of `_guess_col` of `app.py`: exact tier over the targets, then (when a
non-empty fuzzy token list is supplied) the fuzzy tier over the columns. -/
def _guess_col (cols targets fuzzyTokens : List String) : Option String :=
  match guessExact cols targets with
  | some t => some t
  | none => if fuzzyTokens.isEmpty then none else guessFuzzy fuzzyTokens cols

/-- Embedding of `_resolve_pincode_col` of `app.py`. -/
def _resolve_pincode_col (cols : List String) : Option String :=
  match _guess_col cols PINCODE_SYNONYMS [] with
  | some c => some c
  | none => _guess_col cols [] ["pin", "code"]

/-- Accumulator pass of `str.split()` (split on whitespace runs, no empties). -/
def splitWsGo : List Char → List Char → List (List Char)
  | [], cur => if cur = [] then [] else [cur.reverse]
  | c :: rest, cur =>
    if pySpace c then
      (if cur = [] then splitWsGo rest [] else cur.reverse :: splitWsGo rest [])
    else splitWsGo rest (c :: cur)

/-- Model of `str.split()` with no separator argument, as used on canonical phrases. -/
def pySplitWs (s : String) : List String :=
  (splitWsGo s.data []).map String.mk

/-- Embedding of `_resolve_service_col` of `app.py`. -/
def _resolve_service_col (cols : List String) (canonical : String) : Option String :=
  match _guess_col cols [canonical] [] with
  | some c => some c
  | none => _guess_col cols [] (pySplitWs canonical)

/-- The four service-type keys of `SERVICE_CANONICAL`. -/
inductive ServiceKey where
  | fourWTyre
  | fourWBattery
  | twoWTyre
  | twoWBattery
deriving DecidableEq, Repr

/-- The mapping `SERVICE_CANONICAL` of `app.py`. -/
def SERVICE_CANONICAL : ServiceKey → String
  | .fourWTyre => "4w tyre order"
  | .fourWBattery => "4w battery order"
  | .twoWTyre => "2w tyre order"
  | .twoWBattery => "2w battery order"

/-- The keys of `SERVICE_CANONICAL` in dictionary (insertion) order. -/
def SERVICE_KEYS : List ServiceKey :=
  [.fourWTyre, .fourWBattery, .twoWTyre, .twoWBattery]

/-- One data-frame row: association list from column name to cell value. -/
abbrev Row := List (String × String)

/-- Model of `row.get(col, "")`: the first cell stored under `col`, defaulting to `""`. -/
def rowGet (r : Row) (col : String) : String :=
  match r.find? (fun p => p.1 == col) with
  | some p => p.2
  | none => ""

/-- Python dictionary assignment `d[k] = v`: update the existing entry in
place, or append a new one. -/
def dictSet : Row → String → String → Row
  | [], k, v => [(k, v)]
  | p :: rest, k, v => if p.1 == k then (k, v) :: rest else p :: dictSet rest k v

/-- Python `d.pop(k, None)`: drop the entry stored under `k`, if any. -/
def dictPop : Row → String → Row
  | [], _ => []
  | p :: rest, k => if p.1 == k then rest else p :: dictPop rest k

/-- Fold building a Python `dict` from a pair list (later keys override). -/
def dictFold : Row → Row → Row
  | acc, [] => acc
  | acc, (k, v) :: rest => dictFold (dictSet acc k v) rest

/-- Model of `dict(pairs)` for a list of key-value pairs. -/
def pyDict (pairs : Row) : Row :=
  dictFold [] pairs

/-- The column list after header normalization and the rename of the
resolved pincode column to `"pincode"` (`app.py`, lines 147-154). -/
def renamedCols (headers : List String) : List String :=
  let ncols := headers.map _normalize_header
  match _resolve_pincode_col ncols with
  | none => ncols
  | some pcol => ncols.map (fun c => if c == pcol then "pincode" else c)

/-- The service-column loop of `load_data_with_fallbacks` (lines 158-165):
for each key in order, resolve its canonical phrase against the current
columns; otherwise add a synthetic column holding `"no"` in every row and
record the canonical phrase as the resolved column.  Returns the final
columns, the final rows and the `resolved` entries in key order. -/
def resolveServices : List ServiceKey → List String → List Row →
    List String × List Row × List (ServiceKey × String)
  | [], cols, df => (cols, df, [])
  | k :: ks, cols, df =>
    match _resolve_service_col cols (SERVICE_CANONICAL k) with
    | some col =>
      let r := resolveServices ks cols df
      (r.1, r.2.1, (k, col) :: r.2.2)
    | none =>
      let cols2 := cols ++ [SERVICE_CANONICAL k]
      let df2 := df.map (fun row => dictSet row (SERVICE_CANONICAL k) "no")
      let r := resolveServices ks cols2 df2
      (r.1, r.2.1, (k, SERVICE_CANONICAL k) :: r.2.2)

/-- Look a service key up in the `resolved` map built by the loader. -/
def resolvedGet (res : List (ServiceKey × String)) (k : ServiceKey) : String :=
  match res.find? (fun p => decide (p.1 = k)) with
  | some p => p.2
  | none => ""

/-- The schema part of `load_data_with_fallbacks` (lines 144-172), from the
point where a CSV body has been parsed into `headers` and `rows`: normalize
headers, resolve the pincode column (failure aborts the load and carries the
normalized header list), rename it, project every pincode cell to its
digits, resolve the four service columns with `"no"`-valued synthetic
fallbacks, and rename a detected remark/notes column to `"remark"`. -/
def load_data (headers : List String) (rows : List (List String)) :
    Except (List String) (List Row × List (ServiceKey × String)) :=
  let ncols := headers.map _normalize_header
  match _resolve_pincode_col ncols with
  | none => Except.error ncols
  | some _ =>
    let cols1 := renamedCols headers
    let df0 : List Row := rows.map (fun r => cols1.zip r)
    let df1 := df0.map (fun r => dictSet r "pincode" (_digits_only (rowGet r "pincode")))
    let out := resolveServices SERVICE_KEYS cols1 df1
    let remarkCol := out.1.find? (fun c => pyIn "remark" c || pyIn "note" c)
    match remarkCol with
    | some rc =>
      Except.ok
        (out.2.1.map (fun r => r.map (fun p => (if p.1 == rc then "remark" else p.1, p.2))),
         out.2.2)
    | none => Except.ok (out.2.1, out.2.2)

/-- The raw cell a given data row holds under the renamed pincode column,
before the digit projection (for stating the load-time pincode invariant). -/
def rawPinCell (headers : List String) (r : List String) : String :=
  rowGet ((renamedCols headers).zip r) "pincode"

/-- Outcome of one press of the check button. -/
inductive CheckResult where
  | invalidPin
  | notFound
  | result (serviceable : Bool) (warn4wOnly : Bool) (remark : Option String)
deriving DecidableEq, Repr

/-- The serviceable flag reported by a check outcome (false when no row
result was produced). -/
def CheckResult.serviceableFlag : CheckResult → Bool
  | .result b _ _ => b
  | _ => false

/-- Whether the "Only 4W Tyre is serviceable" warning was surfaced. -/
def CheckResult.warnFlag : CheckResult → Bool
  | .result _ w _ => w
  | _ => false

/-- Embedding of `safe_yes` of the check logic: the resolved column of a service key
holds `"yes"` after trimming and lowercasing. -/
def safeYes (SC : ServiceKey → String) (row : Row) (k : ServiceKey) : Bool :=
  stripLower (rowGet row (SC k)) == "yes"

/-- Embedding of `is_4w_only` of the check logic (lines 266-271). -/
def is4wOnly (SC : ServiceKey → String) (row : Row) : Bool :=
  safeYes SC row .fourWTyre && !safeYes SC row .fourWBattery &&
    !safeYes SC row .twoWTyre && !safeYes SC row .twoWBattery

/-- Evaluation of one matched row (lines 251-281): serviceability of the
requested service, the 4W-tyre-only warning (surfaced only on a serviceable
4W-tyre request), and the remark (surfaced only when non-empty and not `"-"`). -/
def evaluate (SC : ServiceKey → String) (svc : ServiceKey) (row : Row) : CheckResult :=
  let val := stripLower (rowGet row (SC svc))
  let isServiceable := val == "yes"
  if isServiceable then
    let remark := pyStrip (rowGet row "remark")
    CheckResult.result true (decide (svc = ServiceKey.fourWTyre) && is4wOnly SC row)
      (if remark ≠ "" ∧ remark ≠ "-" then some remark else none)
  else CheckResult.result false false none

/-- The whole check-button logic (lines 240-281): validate the digit
projection of the typed pincode, look the first matching row up, evaluate it. -/
def check (df : List Row) (SC : ServiceKey → String) (svc : ServiceKey)
    (pincodeInput : String) : CheckResult :=
  let pin := _digits_only pincodeInput
  if pin.length ≠ 6 then CheckResult.invalidPin
  else
    match df.find? (fun r => rowGet r "pincode" == pin) with
    | none => CheckResult.notFound
    | some row => evaluate SC svc row

/-- Split a character list at the first occurrence of a separator
(`urlparse` query boundary, `partition` at `=`). -/
def splitFirstChar (sep : Char) : List Char → List Char × List Char
  | [] => ([], [])
  | c :: rest =>
    if c == sep then ([], rest)
    else
      let r := splitFirstChar sep rest
      (c :: r.1, r.2)

/-- Everything before the first `?` of a URL (`urlparse` without the query). -/
def urlBase (u : String) : String :=
  String.mk (splitFirstChar '?' u.data).1

/-- The query string of a URL: everything after the first `?`. -/
def urlQuery (u : String) : String :=
  String.mk (splitFirstChar '?' u.data).2

/-- Split a character list on every occurrence of a separator. -/
def splitOnChar (sep : Char) : List Char → List (List Char)
  | [] => [[]]
  | c :: rest =>
    let r := splitOnChar sep rest
    if c == sep then [] :: r
    else
      match r with
      | [] => [[c]]
      | seg :: segs => (c :: seg) :: segs

/-- Model of `urllib.parse.parse_qsl` with blank values kept, restricted to
already-encoded queries: split on `&`, skip empty fields, cut each field at
its first `=` (a field with no `=` becomes a blank-valued pair). -/
def parseQsl (q : String) : Row :=
  (splitOnChar '&' q.data).filterMap (fun seg =>
    if seg = [] then none
    else
      let p := splitFirstChar '=' seg
      some (String.mk p.1, String.mk p.2))

/-- Join with `&` (the gluing half of `urlencode`). -/
def joinAmp : List String → String
  | [] => ""
  | [s] => s
  | s :: rest => s ++ "&" ++ joinAmp rest

/-- Model of `urllib.parse.urlencode` on a dictionary of already-encoded strings. -/
def urlencodePairs (q : Row) : String :=
  joinAmp (q.map (fun p => p.1 ++ "=" ++ p.2))

/-- Model of `urlunparse` after `._replace(query=...)`, for fragment-free URLs: the
`?` reappears exactly when the query is non-empty. -/
def unparseWithQuery (base q : String) : String :=
  if q = "" then base else base ++ "?" ++ q

/-- First pass of the de-duplication loop of `_variants_of_sheet_url`,
carrying the `seen` set. -/
def pyDedupGo (seen : List String) : List String → List String
  | [] => []
  | x :: xs => if seen.contains x then pyDedupGo seen xs else x :: pyDedupGo (x :: seen) xs

/-- The de-duplication loop of `_variants_of_sheet_url` (lines 121-124):
drop later duplicates, preserving first-occurrence order. -/
def pyDedup (l : List String) : List String :=
  pyDedupGo [] l

/-- Embedding of `_variants_of_sheet_url` of `app.py` (lines 93-125). -/
def _variants_of_sheet_url (u : String) : List String :=
  if u = "" then []
  else
    let base := urlBase u
    let q := pyDict (parseQsl (urlQuery u))
    let q2 := dictSet q "output" "csv"
    let v2 := unparseWithQuery base (urlencodePairs q2)
    let q3 := dictPop q2 "single"
    let v3 := unparseWithQuery base (urlencodePairs q3)
    let v4 := v2 ++ (if pyIn "?" v2 then "&" else "?") ++ "cachebust=1"
    pyDedup [u, v2, v3, v4]

/-- The candidate with the output format forced to CSV (named form of `v2`). -/
def forceCsvUrl (u : String) : String :=
  unparseWithQuery (urlBase u)
    (urlencodePairs (dictSet (pyDict (parseQsl (urlQuery u))) "output" "csv"))

/-- The candidate with the `single` parameter dropped (named form of `v3`). -/
def dropSingleUrl (u : String) : String :=
  unparseWithQuery (urlBase u)
    (urlencodePairs (dictPop (dictSet (pyDict (parseQsl (urlQuery u))) "output" "csv") "single"))

/-- The cache-busting candidate (named form of `v4`). -/
def cacheBustUrl (u : String) : String :=
  let v2 := forceCsvUrl u
  v2 ++ (if pyIn "?" v2 then "&" else "?") ++ "cachebust=1"

/-- Does a character list begin with a whitespace character (used to state
the normalization invariants). -/
def startsSpace : List Char → Bool
  | [] => false
  | c :: _ => pySpace c

/-- Does a character list end with a whitespace character. -/
def endsSpace : List Char → Bool
  | [] => false
  | c :: rest =>
    match rest with
    | [] => pySpace c
    | _ :: _ => endsSpace rest

/-- Does a character list contain two adjacent whitespace characters. -/
def hasAdjSp : List Char → Bool
  | [] => false
  | a :: rest =>
    match rest with
    | [] => false
    | b :: _ => (pySpace a && pySpace b) || hasAdjSp rest

/-- Sample header row used to exercise the loader (scenario A of the spec). -/
def wHeaders : List String :=
  ["Pin Code", "4W Tyre Order", "2W Tyre Order", "2W Battery Order", "Remark"]

/-- Sample data rows for `wHeaders`; the 4W battery column is absent. -/
def wRows : List (List String) :=
  [["400 001", "Yes", "No", "No", "-"]]

/-- The table `load_data wHeaders wRows` produces. -/
def wDf : List Row :=
  [[("pincode", "400001"), ("4w tyre order", "Yes"), ("2w tyre order", "No"),
    ("2w battery order", "No"), ("remark", "-"), ("4w battery order", "no")]]

/-- The resolved service-column map `load_data wHeaders wRows` produces. -/
def wRes : List (ServiceKey × String) :=
  [(.fourWTyre, "4w tyre order"), (.fourWBattery, "4w battery order"),
   (.twoWTyre, "2w tyre order"), (.twoWBattery, "2w battery order")]

/-- A resolved column map assigning each service its canonical phrase. -/
def SC0 : ServiceKey → String := SERVICE_CANONICAL

/-- A sample row that is not serviceable for 4W tyre. -/
def wRow110 : Row :=
  [("pincode", "110001"), ("4w tyre order", "No")]

/-- A sample row serviceable only for 4W tyre. -/
def wRow400 : Row :=
  [("pincode", "400001"), ("4w tyre order", "Yes"), ("4w battery order", "No"),
   ("2w tyre order", "No"), ("2w battery order", "No")]

/-- A second row with the same pincode but a different 4W-tyre answer. -/
def wRow400b : Row :=
  [("pincode", "400001"), ("4w tyre order", "No")]

/-- A sample published-sheet URL. -/
def wUrl : String := "http://h/p?gid=0&single=true&output=csv"

theorem guessExact_eq (cols : List String) :
    ∀ ts, guessExact cols ts = ts.find? (fun t => cols.contains t) := by
  intro ts
  induction ts with
  | nil => rfl
  | cons t ts ih =>
    simp only [guessExact]
    by_cases h : cols.contains t = true
    · rw [if_pos h, List.find?_cons_of_pos _ h]
    · rw [if_neg h, List.find?_cons_of_neg _ h]
      exact ih

theorem guessFuzzy_eq (tokens : List String) :
    ∀ cs, guessFuzzy tokens cs = cs.find? (fun c => tokens.all (fun tok => pyIn tok c)) := by
  intro cs
  induction cs with
  | nil => rfl
  | cons c cs ih =>
    simp only [guessFuzzy]
    by_cases h : tokens.all (fun tok => pyIn tok c) = true
    · rw [if_pos h]
      exact (@List.find?_cons_of_pos _ (fun x => tokens.all fun tok => pyIn tok x) c cs h).symm
    · rw [if_neg h]
      exact ih.trans
        (@List.find?_cons_of_neg _ (fun x => tokens.all fun tok => pyIn tok x) c cs h).symm

theorem resolve_pincode_or_eq (cols : List String) :
    _resolve_pincode_col cols =
      (PINCODE_SYNONYMS.find? (fun t => cols.contains t)).or
        (cols.find? (fun c => pyIn "pin" c && pyIn "code" c)) := by
  have hx : _guess_col cols PINCODE_SYNONYMS [] =
      PINCODE_SYNONYMS.find? (fun t => cols.contains t) := by
    unfold _guess_col
    rw [guessExact_eq]
    cases List.find? (fun t => cols.contains t) PINCODE_SYNONYMS <;> simp
  have hy : _guess_col cols [] ["pin", "code"] =
      cols.find? (fun c => pyIn "pin" c && pyIn "code" c) := by
    have h1 : _guess_col cols [] ["pin", "code"] = guessFuzzy ["pin", "code"] cols := rfl
    rw [h1, guessFuzzy_eq]
    congr 1
    funext c
    simp [List.all_cons]
  unfold _resolve_pincode_col
  rw [hx, hy]
  cases List.find? (fun t => cols.contains t) PINCODE_SYNONYMS <;> simp [Option.or]

/-- C4: pincode column resolution is two-tier.  The resolver returns the
first synonym of `PINCODE_SYNONYMS` (in list order) present among the
headers; only if none is present, the first header in table column order
containing both `"pin"` and `"code"` as substrings; and `none` otherwise. -/
theorem resolve_pincode_two_tier (cols : List String) :
    _resolve_pincode_col cols =
      (PINCODE_SYNONYMS.find? (fun t => cols.contains t)).or
        (cols.find? (fun c => pyIn "pin" c && pyIn "code" c)) :=
  resolve_pincode_or_eq cols

theorem evaluate_pos (SC : ServiceKey → String) (svc : ServiceKey) (row : Row)
    (h : stripLower (rowGet row (SC svc)) = "yes") :
    evaluate SC svc row =
      CheckResult.result true (decide (svc = ServiceKey.fourWTyre) && is4wOnly SC row)
        (if pyStrip (rowGet row "remark") ≠ "" ∧ pyStrip (rowGet row "remark") ≠ "-" then
          some (pyStrip (rowGet row "remark")) else none) := by
  simp only [evaluate]
  rw [if_pos (beq_iff_eq.mpr h)]

theorem evaluate_neg (SC : ServiceKey → String) (svc : ServiceKey) (row : Row)
    (h : stripLower (rowGet row (SC svc)) ≠ "yes") :
    evaluate SC svc row = CheckResult.result false false none := by
  simp only [evaluate]
  rw [if_neg (fun hc => h (beq_iff_eq.mp hc))]

theorem evaluate_serviceable_eq (SC : ServiceKey → String) (svc : ServiceKey) (row : Row) :
    (evaluate SC svc row).serviceableFlag = (stripLower (rowGet row (SC svc)) == "yes") := by
  unfold evaluate
  by_cases h : stripLower (rowGet row (SC svc)) = "yes"
  · simp [h, CheckResult.serviceableFlag]
  · simp [h, CheckResult.serviceableFlag, beq_iff_eq]

/-- C2: the evaluator reports serviceable exactly when the resolved service
column's cell, trimmed and lowercased, equals the string `yes`; every other
value yields not serviceable. -/
theorem evaluate_serviceable_iff_yes (SC : ServiceKey → String) (svc : ServiceKey) (row : Row) :
    (evaluate SC svc row).serviceableFlag = true ↔
      stripLower (rowGet row (SC svc)) = "yes" := by
  rw [evaluate_serviceable_eq]
  exact beq_iff_eq

theorem evaluate_warn_eq (SC : ServiceKey → String) (svc : ServiceKey) (row : Row) :
    (evaluate SC svc row).warnFlag =
      (decide (svc = ServiceKey.fourWTyre) && is4wOnly SC row &&
        (stripLower (rowGet row (SC svc)) == "yes")) := by
  by_cases h : stripLower (rowGet row (SC svc)) = "yes"
  · have hcond : (stripLower (rowGet row (SC svc)) == "yes") = true := beq_iff_eq.mpr h
    rw [evaluate_pos SC svc row h, hcond, Bool.and_true]
    rfl
  · have hcond : (stripLower (rowGet row (SC svc)) == "yes") = false :=
      beq_eq_false_iff_ne.mpr h
    rw [evaluate_neg SC svc row h, hcond, Bool.and_false]
    rfl

/-- C3: `is_4w_only` holds exactly when the resolved 4W-tyre cell reads
`yes` (trimmed, lowercased) and the other three service cells do not; and
the warning is surfaced exactly on a serviceable 4W-tyre request whose row
satisfies that pattern. -/
theorem only4w_flag_and_surfacing (SC : ServiceKey → String) (row : Row) (svc : ServiceKey) :
    (is4wOnly SC row = true ↔
      (stripLower (rowGet row (SC ServiceKey.fourWTyre)) = "yes" ∧
       stripLower (rowGet row (SC ServiceKey.fourWBattery)) ≠ "yes" ∧
       stripLower (rowGet row (SC ServiceKey.twoWTyre)) ≠ "yes" ∧
       stripLower (rowGet row (SC ServiceKey.twoWBattery)) ≠ "yes")) ∧
    ((evaluate SC svc row).warnFlag = true ↔
      (svc = ServiceKey.fourWTyre ∧ (evaluate SC svc row).serviceableFlag = true ∧
        is4wOnly SC row = true)) := by
  constructor
  · simp [is4wOnly, safeYes, Bool.and_eq_true, beq_iff_eq, Bool.not_eq_true', beq_eq_false_iff_ne]
    tauto
  · rw [evaluate_warn_eq, evaluate_serviceable_eq]
    simp only [Bool.and_eq_true, decide_eq_true_iff, beq_iff_eq]
    tauto

theorem evaluate_eq_result (SC : ServiceKey → String) (svc : ServiceKey) (row : Row) :
    ∃ b w rm, evaluate SC svc row = CheckResult.result b w rm := by
  by_cases h : stripLower (rowGet row (SC svc)) = "yes"
  · exact ⟨_, _, _, evaluate_pos SC svc row h⟩
  · exact ⟨_, _, _, evaluate_neg SC svc row h⟩

/-- C8: the check logic reports the input-validation error exactly when the
digits-only projection of the typed pincode is not 6 characters long, and
otherwise proceeds to the table lookup on that projection. -/
theorem invalid_pin_validation (df : List Row) (SC : ServiceKey → String)
    (svc : ServiceKey) (input : String) :
    (check df SC svc input = CheckResult.invalidPin ↔ (_digits_only input).length ≠ 6) ∧
    ((_digits_only input).length = 6 →
      check df SC svc input =
        match df.find? (fun r => rowGet r "pincode" == _digits_only input) with
        | none => CheckResult.notFound
        | some row => evaluate SC svc row) := by
  constructor
  · by_cases h : (_digits_only input).length = 6
    · simp only [check]
      rw [if_neg (fun hn => hn h)]
      constructor
      · intro hc
        exfalso
        cases hfind : List.find? (fun r => rowGet r "pincode" == _digits_only input) df with
        | none => rw [hfind] at hc; exact CheckResult.noConfusion hc
        | some row =>
          rw [hfind] at hc
          have hc' : evaluate SC svc row = CheckResult.invalidPin := hc
          obtain ⟨b, w, rm, hev⟩ := evaluate_eq_result SC svc row
          rw [hev] at hc'
          exact CheckResult.noConfusion hc'
      · intro hc; exact absurd h hc
    · simp only [check]
      rw [if_pos h]
      simp [h]
  · intro h
    simp only [check]
    rw [if_neg (fun hn => hn h)]

/-- C10: when several rows carry the queried pincode, the check uses the
first matching row in table order; rows after it never influence the
result. -/
theorem first_matching_row_wins (df1 : List Row) (r : Row) (df2 : List Row)
    (SC : ServiceKey → String) (svc : ServiceKey) (input : String)
    (h6 : (_digits_only input).length = 6)
    (hr : rowGet r "pincode" = _digits_only input)
    (hnone : ∀ r' ∈ df1, rowGet r' "pincode" ≠ _digits_only input) :
    check (df1 ++ r :: df2) SC svc input = evaluate SC svc r := by
  simp only [check]
  rw [if_neg (fun hn => hn h6)]
  rw [List.find?_append]
  have h1 : List.find? (fun rr => rowGet rr "pincode" == _digits_only input) df1 = none := by
    rw [List.find?_eq_none]
    intro x hx
    simp only [beq_iff_eq]
    exact fun hcontra => hnone x hx hcontra
  rw [h1, Option.none_or]
  rw [List.find?_cons_of_pos _ (by simp [beq_iff_eq, hr])]

theorem bool_eq_false {b : Bool} (h : ¬ b = true) : b = false := by
  cases b with
  | false => rfl
  | true => exact absurd rfl h

theorem rstripList_cons (c : Char) (rest : List Char) :
    rstripList (c :: rest) =
      if rstripList rest = [] ∧ pySpace c = true then [] else c :: rstripList rest := rfl

theorem collapseWs_one (a : Char) :
    collapseWs [a] = [if pySpace a = true then ' ' else a] := rfl

theorem collapseWs_two (a b : Char) (rest : List Char) :
    collapseWs (a :: b :: rest) =
      if pySpace a = true ∧ pySpace b = true then collapseWs (b :: rest)
      else (if pySpace a = true then ' ' else a) :: collapseWs (b :: rest) := rfl

theorem hasAdjSp_two (a b : Char) (rest : List Char) :
    hasAdjSp (a :: b :: rest) = ((pySpace a && pySpace b) || hasAdjSp (b :: rest)) := rfl

theorem allowed_pyLower (c : Char) (h : allowedChar c = true) : pyLowerChar c = c := by
  simp only [allowedChar, decide_eq_true_eq] at h
  unfold pyLowerChar
  rw [if_neg (by omega)]

theorem allowed_not_bom (c : Char) (h : allowedChar c = true) : (c == '﻿') = false := by
  by_cases hb : c = '﻿'
  · subst hb; exact absurd h (by decide)
  · exact beq_eq_false_iff_ne.mpr hb

theorem allowed_not_underscore (c : Char) (h : allowedChar c = true) : (c == '_') = false := by
  by_cases hb : c = '_'
  · subst hb; exact absurd h (by decide)
  · exact beq_eq_false_iff_ne.mpr hb

theorem allowed_space_eq (c : Char) (h : allowedChar c = true) (hs : pySpace c = true) :
    c = ' ' := by
  simp only [pySpace, Bool.or_eq_true, beq_iff_eq] at hs
  rcases hs with ((((h1 | h1) | h1) | h1) | h1) | h1 <;> subst h1 <;>
    first
    | rfl
    | exact absurd h (by decide)

theorem normList_all_allowed (l : List Char) : (normList l).all allowedChar = true := by
  simp only [normList]
  rw [List.all_eq_true]
  intro x hx
  exact (List.mem_filter.mp hx).2

theorem map_pyLower_id (l : List Char) :
    l.all allowedChar = true → l.map pyLowerChar = l := by
  induction l with
  | nil => intro _; rfl
  | cons c rest ih =>
    intro h
    rw [List.all_cons, Bool.and_eq_true] at h
    simp [allowed_pyLower c h.1, ih h.2]

theorem filter_bom_id (l : List Char) (h : l.all allowedChar = true) :
    l.filter (fun c => !(c == '﻿')) = l := by
  rw [List.filter_eq_self]
  intro a ha
  rw [List.all_eq_true] at h
  simp [allowed_not_bom a (h a ha)]

theorem map_underscore_id (l : List Char) :
    l.all allowedChar = true → l.map (fun c => if c == '_' then ' ' else c) = l := by
  induction l with
  | nil => intro _; rfl
  | cons c rest ih =>
    intro h
    rw [List.all_cons, Bool.and_eq_true] at h
    rw [List.map_cons, ih h.2,
      if_neg (fun hcc => by rw [allowed_not_underscore c h.1] at hcc; exact Bool.false_ne_true hcc)]

theorem dropWhile_all (l : List Char) (p q : Char → Bool) (h : l.all q = true) :
    (l.dropWhile p).all q = true := by
  rw [List.all_eq_true] at h ⊢
  intro x hx
  exact h x ((List.dropWhile_suffix p).sublist.subset hx)

theorem rstrip_subset (l : List Char) : ∀ x ∈ rstripList l, x ∈ l := by
  induction l with
  | nil => intro x hx; exact absurd hx (List.not_mem_nil x)
  | cons c rest ih =>
    intro x hx
    rw [rstripList_cons] at hx
    by_cases hc : rstripList rest = [] ∧ pySpace c = true
    · rw [if_pos hc] at hx; exact absurd hx (List.not_mem_nil x)
    · rw [if_neg hc] at hx
      rcases List.mem_cons.mp hx with h1 | h1
      · exact h1 ▸ List.mem_cons_self c rest
      · exact List.mem_cons_of_mem c (ih x h1)

theorem rstrip_all (l : List Char) (q : Char → Bool) (h : l.all q = true) :
    (rstripList l).all q = true := by
  rw [List.all_eq_true] at h ⊢
  intro x hx
  exact h x (rstrip_subset l x hx)

theorem strip_all (l : List Char) (h : l.all allowedChar = true) :
    (stripList l).all allowedChar = true :=
  rstrip_all _ _ (dropWhile_all _ _ _ h)

theorem collapse_all (l : List Char) :
    l.all allowedChar = true → (collapseWs l).all allowedChar = true := by
  induction l with
  | nil => intro _; rfl
  | cons a rest ih =>
    intro h
    rw [List.all_cons, Bool.and_eq_true] at h
    cases rest with
    | nil =>
      rw [collapseWs_one]
      by_cases hpa : pySpace a = true
      · rw [if_pos hpa]; decide
      · rw [if_neg hpa]; simp [h.1]
    | cons b rest2 =>
      rw [collapseWs_two]
      by_cases hs : pySpace a = true ∧ pySpace b = true
      · rw [if_pos hs]; exact ih h.2
      · rw [if_neg hs]
        rw [List.all_cons, Bool.and_eq_true]
        refine ⟨?_, ih h.2⟩
        by_cases hpa : pySpace a = true
        · rw [if_pos hpa]; decide
        · rw [if_neg hpa]; exact h.1

theorem startsSpace_dropWhile (l : List Char) : startsSpace (l.dropWhile pySpace) = false := by
  induction l with
  | nil => rfl
  | cons c rest ih =>
    rw [List.dropWhile_cons]
    by_cases hpc : pySpace c = true
    · rw [if_pos hpc]; exact ih
    · rw [if_neg hpc]; exact bool_eq_false hpc

theorem startsSpace_rstrip (l : List Char) (h : startsSpace l = false) :
    startsSpace (rstripList l) = false := by
  cases l with
  | nil => rfl
  | cons c rest =>
    rw [rstripList_cons]
    by_cases hc : rstripList rest = [] ∧ pySpace c = true
    · rw [if_pos hc]; rfl
    · rw [if_neg hc]; exact h

theorem startsSpace_strip (l : List Char) : startsSpace (stripList l) = false :=
  startsSpace_rstrip _ (startsSpace_dropWhile l)

theorem endsSpace_cons (c : Char) (m : List Char) (h : m ≠ []) :
    endsSpace (c :: m) = endsSpace m := by
  cases m with
  | nil => exact absurd rfl h
  | cons b r => rfl

theorem endsSpace_rstrip (l : List Char) : endsSpace (rstripList l) = false := by
  induction l with
  | nil => rfl
  | cons c rest ih =>
    rw [rstripList_cons]
    by_cases hr : rstripList rest = []
    · by_cases hpc : pySpace c = true
      · rw [if_pos ⟨hr, hpc⟩]; rfl
      · rw [if_neg (fun hcc => hpc hcc.2)]
        rw [hr]
        exact bool_eq_false hpc
    · rw [if_neg (fun hcc => hr hcc.1)]
      rw [endsSpace_cons c _ hr]
      exact ih

theorem dropWhile_id_of_startsSpace (l : List Char) (h : startsSpace l = false) :
    l.dropWhile pySpace = l := by
  cases l with
  | nil => rfl
  | cons c rest =>
    have h' : pySpace c = false := h
    rw [List.dropWhile_cons, if_neg (by simp [h'])]

theorem rstrip_id_of_endsSpace (l : List Char) :
    endsSpace l = false → rstripList l = l := by
  induction l with
  | nil => intro _; rfl
  | cons c rest ih =>
    intro h
    cases rest with
    | nil =>
      have hpc : pySpace c = false := h
      rw [rstripList_cons]
      rw [if_neg (fun hcc => by rw [hpc] at hcc; exact Bool.false_ne_true hcc.2)]
      rfl
    | cons b rest2 =>
      have h2 : endsSpace (b :: rest2) = false := h
      have hrr := ih h2
      rw [rstripList_cons]
      rw [if_neg (fun hcc => by rw [hrr] at hcc; exact List.cons_ne_nil b rest2 hcc.1)]
      rw [hrr]

theorem collapse_ne_nil (l : List Char) : l ≠ [] → collapseWs l ≠ [] := by
  induction l with
  | nil => intro h; exact absurd rfl h
  | cons a rest ih =>
    intro _
    cases rest with
    | nil => rw [collapseWs_one]; simp
    | cons b rest2 =>
      rw [collapseWs_two]
      by_cases hs : pySpace a = true ∧ pySpace b = true
      · rw [if_pos hs]; exact ih (by simp)
      · rw [if_neg hs]; simp

theorem startsSpace_collapse (l : List Char) (h : startsSpace l = false) :
    startsSpace (collapseWs l) = false := by
  cases l with
  | nil => rfl
  | cons a rest =>
    have hpa : pySpace a = false := h
    cases rest with
    | nil =>
      rw [collapseWs_one]
      rw [if_neg (by simp [hpa])]
      exact hpa
    | cons b rest2 =>
      rw [collapseWs_two]
      rw [if_neg (fun hcc => by rw [hpa] at hcc; exact Bool.false_ne_true hcc.1)]
      rw [if_neg (by simp [hpa])]
      exact hpa

theorem endsSpace_collapse (l : List Char) :
    endsSpace l = false → endsSpace (collapseWs l) = false := by
  induction l with
  | nil => intro _; rfl
  | cons a rest ih =>
    intro h
    cases rest with
    | nil =>
      have hpa : pySpace a = false := h
      rw [collapseWs_one]
      rw [if_neg (by simp [hpa])]
      exact hpa
    | cons b rest2 =>
      have h2 : endsSpace (b :: rest2) = false := h
      rw [collapseWs_two]
      by_cases hs : pySpace a = true ∧ pySpace b = true
      · rw [if_pos hs]; exact ih h2
      · rw [if_neg hs]
        rw [endsSpace_cons _ _ (collapse_ne_nil _ (by simp))]
        exact ih h2

theorem hasAdjSp_cons (c : Char) (m : List Char) :
    hasAdjSp (c :: m) = ((pySpace c && startsSpace m) || hasAdjSp m) := by
  cases m with
  | nil => simp [hasAdjSp, startsSpace]
  | cons b r => rfl

theorem hasAdjSp_collapse (l : List Char) : hasAdjSp (collapseWs l) = false := by
  induction l with
  | nil => rfl
  | cons a rest ih =>
    cases rest with
    | nil => rw [collapseWs_one]; rfl
    | cons b rest2 =>
      rw [collapseWs_two]
      by_cases hs : pySpace a = true ∧ pySpace b = true
      · rw [if_pos hs]; exact ih
      · rw [if_neg hs]
        rw [hasAdjSp_cons, ih, Bool.or_false]
        by_cases hpa : pySpace a = true
        · rw [if_pos hpa]
          have hb : pySpace b = false := by
            by_cases hpb : pySpace b = true
            · exact absurd ⟨hpa, hpb⟩ hs
            · exact bool_eq_false hpb
          rw [startsSpace_collapse (b :: rest2) (show startsSpace (b :: rest2) = false from hb),
            Bool.and_false]
        · rw [if_neg hpa, bool_eq_false hpa, Bool.false_and]

theorem collapse_id (l : List Char) :
    l.all allowedChar = true → hasAdjSp l = false → collapseWs l = l := by
  induction l with
  | nil => intro _ _; rfl
  | cons a rest ih =>
    intro hall hadj
    rw [List.all_cons, Bool.and_eq_true] at hall
    have hfix : (if pySpace a = true then ' ' else a) = a := by
      by_cases hpa : pySpace a = true
      · rw [if_pos hpa]; exact (allowed_space_eq a hall.1 hpa).symm
      · rw [if_neg hpa]
    cases rest with
    | nil =>
      rw [collapseWs_one, hfix]
    | cons b rest2 =>
      rw [hasAdjSp_two, Bool.or_eq_false_iff] at hadj
      have hne : ¬(pySpace a = true ∧ pySpace b = true) := by
        intro hcc
        have hx := hadj.1
        rw [hcc.1, hcc.2] at hx
        simp at hx
      rw [collapseWs_two, if_neg hne, hfix, ih hall.2 hadj.2]

theorem norm_allGood (l : List Char) (h : l.all allowedChar = true) :
    normList l = collapseWs (stripList l) := by
  have hs : (stripList l).all allowedChar = true := strip_all l h
  simp only [normList]
  rw [map_pyLower_id _ hs, filter_bom_id _ hs, map_underscore_id _ hs]
  have hca : ∀ a ∈ collapseWs (stripList l), allowedChar a = true := by
    intro a ha
    exact List.all_eq_true.mp (collapse_all _ hs) a ha
  rw [List.filter_eq_self.mpr hca]

theorem norm_idem_on_allowed (l : List Char) (h : l.all allowedChar = true) :
    normList (normList l) = normList l := by
  rw [norm_allGood l h]
  have hstripall : (stripList l).all allowedChar = true := strip_all l h
  have hwall : (collapseWs (stripList l)).all allowedChar = true := collapse_all _ hstripall
  have hw1 : startsSpace (collapseWs (stripList l)) = false :=
    startsSpace_collapse _ (startsSpace_strip l)
  have hw2 : endsSpace (collapseWs (stripList l)) = false :=
    endsSpace_collapse _ (endsSpace_rstrip _)
  have hw3 : hasAdjSp (collapseWs (stripList l)) = false := hasAdjSp_collapse _
  have hstr : stripList (collapseWs (stripList l)) = collapseWs (stripList l) := by
    show rstripList ((collapseWs (stripList l)).dropWhile pySpace) = collapseWs (stripList l)
    rw [dropWhile_id_of_startsSpace _ hw1]
    exact rstrip_id_of_endsSpace _ hw2
  rw [norm_allGood _ hwall, hstr]
  exact collapse_id _ hwall hw3

/-- C1 counterexample: header normalization is not idempotent as stated.
On the input `"_a"` one application yields `" a"` (the underscore becomes a
space that is not re-trimmed), while a second application trims it to
`"a"`. -/
theorem normalize_header_not_idempotent :
    _normalize_header "_a" = " a" ∧
      _normalize_header (_normalize_header "_a") = "a" ∧
      _normalize_header (_normalize_header "_a") ≠ _normalize_header "_a" :=
  ⟨by decide, by decide, by decide⟩

/-- C1 amended: header normalization is idempotent on every string made of
lowercase letters, digits and spaces only — in particular on every output
of the normalizer itself from the second application on: applying
`_normalize_header` three times agrees with applying it twice, for every
input string. -/
theorem normalize_header_idempotent_from_second (s : String) :
    _normalize_header (_normalize_header (_normalize_header s)) =
      _normalize_header (_normalize_header s) :=
  congrArg String.mk (norm_idem_on_allowed (normList s.data) (normList_all_allowed s.data))

theorem dictSet_cons (p : String × String) (rest : Row) (k v : String) :
    dictSet (p :: rest) k v =
      if (p.1 == k) = true then (k, v) :: rest else p :: dictSet rest k v := rfl

theorem rowGet_cons (p : String × String) (rest : Row) (col : String) :
    rowGet (p :: rest) col = if (p.1 == col) = true then p.2 else rowGet rest col := by
  by_cases h : (p.1 == col) = true
  · rw [if_pos h]
    unfold rowGet
    rw [@List.find?_cons_of_pos _ (fun q => q.1 == col) p rest h]
  · rw [if_neg h]
    unfold rowGet
    rw [@List.find?_cons_of_neg _ (fun q => q.1 == col) p rest h]

theorem rowGet_dictSet_same (r : Row) (k v : String) : rowGet (dictSet r k v) k = v := by
  induction r with
  | nil => simp [dictSet, rowGet_cons]
  | cons p rest ih =>
    rw [dictSet_cons]
    by_cases h : (p.1 == k) = true
    · rw [if_pos h, rowGet_cons]
      simp
    · rw [if_neg h, rowGet_cons, if_neg h]
      exact ih

theorem rowGet_dictSet_other (r : Row) (k v col : String) (hne : col ≠ k) :
    rowGet (dictSet r k v) col = rowGet r col := by
  have hk : (k == col) = false := beq_eq_false_iff_ne.mpr (Ne.symm hne)
  induction r with
  | nil =>
    simp [dictSet, rowGet_cons, hk]
  | cons p rest ih =>
    rw [dictSet_cons]
    by_cases h : (p.1 == k) = true
    · rw [if_pos h, rowGet_cons, rowGet_cons]
      have hp : (p.1 == col) = false := by
        rw [beq_iff_eq] at h
        rw [h]
        exact hk
      rw [hk, hp]
      simp
    · rw [if_neg h, rowGet_cons, rowGet_cons, ih]

theorem rowGet_renameKey (r : Row) (rc col : String) (h1 : rc ≠ col) (h2 : "remark" ≠ col) :
    rowGet (r.map (fun p => (if p.1 == rc then "remark" else p.1, p.2))) col = rowGet r col := by
  induction r with
  | nil => rfl
  | cons p rest ih =>
    rw [List.map_cons, rowGet_cons, rowGet_cons, ih]
    by_cases hp : (p.1 == rc) = true
    · have ha : ("remark" == col) = false := beq_eq_false_iff_ne.mpr h2
      have hb : (p.1 == col) = false := by
        rw [beq_iff_eq] at hp
        rw [hp]
        exact beq_eq_false_iff_ne.mpr h1
      simp only [hp, if_true, ha, hb]
    · have hp' : (p.1 == rc) = false := bool_eq_false hp
      simp only [hp', Bool.false_eq_true, if_false]

theorem resolveServices_cons_some (k : ServiceKey) (ks : List ServiceKey)
    (cols : List String) (df : List Row) (col : String)
    (h : _resolve_service_col cols (SERVICE_CANONICAL k) = some col) :
    resolveServices (k :: ks) cols df =
      ((resolveServices ks cols df).1, (resolveServices ks cols df).2.1,
        (k, col) :: (resolveServices ks cols df).2.2) := by
  simp only [resolveServices, h]

theorem resolveServices_cons_none (k : ServiceKey) (ks : List ServiceKey)
    (cols : List String) (df : List Row)
    (h : _resolve_service_col cols (SERVICE_CANONICAL k) = none) :
    resolveServices (k :: ks) cols df =
      ((resolveServices ks (cols ++ [SERVICE_CANONICAL k])
          (df.map (fun row => dictSet row (SERVICE_CANONICAL k) "no"))).1,
       (resolveServices ks (cols ++ [SERVICE_CANONICAL k])
          (df.map (fun row => dictSet row (SERVICE_CANONICAL k) "no"))).2.1,
       (k, SERVICE_CANONICAL k) ::
         (resolveServices ks (cols ++ [SERVICE_CANONICAL k])
            (df.map (fun row => dictSet row (SERVICE_CANONICAL k) "no"))).2.2) := by
  simp only [resolveServices, h]

theorem resolveServices_rows (ks : List ServiceKey) : ∀ (cols : List String) (df : List Row),
    (resolveServices ks cols df).2.1.length = df.length ∧
    ∀ i : Nat, (resolveServices ks cols df).2.1[i]?.map (fun r => rowGet r "pincode") =
      df[i]?.map (fun r => rowGet r "pincode") := by
  induction ks with
  | nil =>
    intro cols df
    constructor
    · rfl
    · intro i
      show df[i]?.map (fun r => rowGet r "pincode") = df[i]?.map (fun r => rowGet r "pincode")
      rfl
  | cons k ks ih =>
    intro cols df
    cases hres : _resolve_service_col cols (SERVICE_CANONICAL k) with
    | some col =>
      rw [resolveServices_cons_some k ks cols df col hres]
      exact ih cols df
    | none =>
      rw [resolveServices_cons_none k ks cols df hres]
      have hcanon : SERVICE_CANONICAL k ≠ "pincode" := by cases k <;> decide
      have ih2 := ih (cols ++ [SERVICE_CANONICAL k])
        (df.map (fun row => dictSet row (SERVICE_CANONICAL k) "no"))
      constructor
      · rw [ih2.1, List.length_map]
      · intro i
        rw [ih2.2 i, List.getElem?_map, Option.map_map]
        cases hdf : df[i]? with
        | none => rfl
        | some r =>
          show some (rowGet (dictSet r (SERVICE_CANONICAL k) "no") "pincode") =
            some (rowGet r "pincode")
          rw [rowGet_dictSet_other _ _ _ _ (fun hh => hcanon hh.symm)]

theorem resolveServices_rows_mem (ks : List ServiceKey) :
    ∀ (cols : List String) (df : List Row) (r2 : Row),
      r2 ∈ (resolveServices ks cols df).2.1 →
      ∃ r ∈ df, rowGet r2 "pincode" = rowGet r "pincode" := by
  induction ks with
  | nil => exact fun cols df r2 h => ⟨r2, h, rfl⟩
  | cons k ks ih =>
    intro cols df r2 h2
    cases hres : _resolve_service_col cols (SERVICE_CANONICAL k) with
    | some col =>
      rw [resolveServices_cons_some k ks cols df col hres] at h2
      exact ih cols df r2 h2
    | none =>
      rw [resolveServices_cons_none k ks cols df hres] at h2
      have hcanon : SERVICE_CANONICAL k ≠ "pincode" := by cases k <;> decide
      rcases ih _ _ r2 h2 with ⟨r1, hr1, he⟩
      rcases List.mem_map.mp hr1 with ⟨r0, hr0, rfl⟩
      refine ⟨r0, hr0, ?_⟩
      rw [he, rowGet_dictSet_other _ _ _ _ (fun hh => hcanon hh.symm)]

theorem digits_only_all (s : String) : (_digits_only s).data.all pyIsDigit = true := by
  rw [List.all_eq_true]
  intro x hx
  exact (List.mem_filter.mp hx).2

theorem contains_false_iff (l : List String) (x : String) :
    l.contains x = false ↔ x ∉ l := by
  constructor
  · intro h hx
    have h2 : List.elem x l = false := h
    have h3 := List.elem_iff.mpr hx
    rw [h2] at h3
    exact Bool.false_ne_true h3
  · intro h
    by_cases hc : l.contains x = true
    · exact absurd (List.elem_iff.mp hc) h
    · exact bool_eq_false hc

theorem resolve_pincode_none_iff (cols : List String) :
    _resolve_pincode_col cols = none ↔
      ((∀ t ∈ PINCODE_SYNONYMS, t ∉ cols) ∧
       (∀ c ∈ cols, ¬(pyIn "pin" c = true ∧ pyIn "code" c = true))) := by
  rw [resolve_pincode_or_eq cols, Option.or_eq_none, List.find?_eq_none, List.find?_eq_none]
  constructor
  · rintro ⟨h1, h2⟩
    refine ⟨?_, ?_⟩
    · intro t ht
      exact (contains_false_iff cols t).mp (bool_eq_false (h1 t ht))
    · intro c hc hcc
      exact h2 c hc (by rw [hcc.1, hcc.2]; rfl)
  · rintro ⟨h1, h2⟩
    refine ⟨?_, ?_⟩
    · intro t ht hcon
      exact h1 t ht (List.elem_iff.mp hcon)
    · intro c hc hcon
      rw [Bool.and_eq_true] at hcon
      exact h2 c hc hcon

/-- C7: the load fails exactly when the normalized headers contain no
pincode-like column — no exact synonym and no header containing both
`"pin"` and `"code"` — and the failure carries the normalized header
list. -/
theorem load_fails_iff_no_pincode (headers : List String) (rows : List (List String))
    (e : List String) :
    load_data headers rows = Except.error e ↔
      ((∀ t ∈ PINCODE_SYNONYMS, t ∉ headers.map _normalize_header) ∧
       (∀ c ∈ headers.map _normalize_header, ¬(pyIn "pin" c = true ∧ pyIn "code" c = true)) ∧
       e = headers.map _normalize_header) := by
  cases hres : _resolve_pincode_col (headers.map _normalize_header) with
  | none =>
    have hch := (resolve_pincode_none_iff _).mp hres
    simp only [load_data, hres]
    constructor
    · intro h
      injection h with he
      exact ⟨hch.1, hch.2, he.symm⟩
    · rintro ⟨_, _, rfl⟩
      rfl
  | some c =>
    constructor
    · intro h
      simp only [load_data, hres] at h
      split at h <;> exact Except.noConfusion h
    · rintro ⟨h1, h2, _⟩
      have hnone : _resolve_pincode_col (headers.map _normalize_header) = none :=
        (resolve_pincode_none_iff _).mpr ⟨h1, h2⟩
      rw [hres] at hnone
      exact Option.noConfusion hnone

theorem out_rows_pincode (headers : List String) (rows : List (List String)) (df1 : List Row)
    (hdf1 : df1 = (rows.map (fun r => (renamedCols headers).zip r)).map
      (fun r => dictSet r "pincode" (_digits_only (rowGet r "pincode")))) :
    (resolveServices SERVICE_KEYS (renamedCols headers) df1).2.1.length = rows.length ∧
    (∀ i : Nat,
      (resolveServices SERVICE_KEYS (renamedCols headers) df1).2.1[i]?.map
        (fun r => rowGet r "pincode") =
      rows[i]?.map (fun r => _digits_only (rawPinCell headers r))) ∧
    (∀ r2 ∈ (resolveServices SERVICE_KEYS (renamedCols headers) df1).2.1,
      (rowGet r2 "pincode").data.all pyIsDigit = true) := by
  subst hdf1
  refine ⟨?_, ?_, ?_⟩
  · rw [(resolveServices_rows SERVICE_KEYS (renamedCols headers) _).1,
      List.length_map, List.length_map]
  · intro i
    rw [(resolveServices_rows SERVICE_KEYS (renamedCols headers) _).2 i]
    rw [List.getElem?_map, List.getElem?_map, Option.map_map, Option.map_map]
    cases hri : rows[i]? with
    | none => rfl
    | some r =>
      show some (rowGet (dictSet ((renamedCols headers).zip r) "pincode"
          (_digits_only (rowGet ((renamedCols headers).zip r) "pincode"))) "pincode") =
        some (_digits_only (rawPinCell headers r))
      rw [rowGet_dictSet_same]
      rfl
  · intro r2 h2
    rcases resolveServices_rows_mem SERVICE_KEYS (renamedCols headers) _ r2 h2 with ⟨r1, hr1, he⟩
    rcases List.mem_map.mp hr1 with ⟨r0, hr0, rfl⟩
    rw [he, rowGet_dictSet_same]
    exact digits_only_all _

theorem renamed_df_pincode (dfo : List Row) (rc : String) (hrc : rc ≠ "pincode") :
    ∀ i : Nat,
      (dfo.map (fun r => r.map (fun p => (if p.1 == rc then "remark" else p.1, p.2))))[i]?.map
        (fun r => rowGet r "pincode") =
      dfo[i]?.map (fun r => rowGet r "pincode") := by
  intro i
  rw [List.getElem?_map, Option.map_map]
  cases h : dfo[i]? with
  | none => rfl
  | some r =>
    show some (rowGet (r.map fun p => (if p.1 == rc then "remark" else p.1, p.2)) "pincode") =
      some (rowGet r "pincode")
    rw [rowGet_renameKey r rc "pincode" hrc (by decide)]

/-- C5: a successful load never rejects a row, and every stored pincode
key is the digits-only projection of the raw cell under the resolved
pincode column — in particular it consists solely of digit characters. -/
theorem load_pincode_digits (headers : List String) (rows : List (List String))
    (df : List Row) (res : List (ServiceKey × String))
    (h : load_data headers rows = Except.ok (df, res)) :
    df.length = rows.length ∧
    (∀ i : Nat, df[i]?.map (fun r => rowGet r "pincode") =
      rows[i]?.map (fun r => _digits_only (rawPinCell headers r))) ∧
    (∀ r ∈ df, (rowGet r "pincode").data.all pyIsDigit = true) := by
  cases hres : _resolve_pincode_col (headers.map _normalize_header) with
  | none =>
    simp only [load_data, hres] at h
    exact Except.noConfusion h
  | some c =>
    simp only [load_data, hres] at h
    have hout := out_rows_pincode headers rows _ rfl
    split at h
    · next rc heq =>
      have hpred := List.find?_some heq
      have hrc : rc ≠ "pincode" := by
        intro he
        rw [he] at hpred
        exact absurd hpred (by decide)
      injection h with h1
      rw [Prod.mk.injEq] at h1
      obtain ⟨hdf, hres2⟩ := h1
      subst hdf
      refine ⟨?_, ?_, ?_⟩
      · rw [List.length_map]
        exact hout.1
      · intro i
        rw [renamed_df_pincode _ rc hrc i]
        exact hout.2.1 i
      · intro r hr
        rcases List.mem_map.mp hr with ⟨r2, hr2, rfl⟩
        rw [rowGet_renameKey r2 rc "pincode" hrc (by decide)]
        exact hout.2.2 r2 hr2
    · next heq =>
      injection h with h1
      rw [Prod.mk.injEq] at h1
      obtain ⟨hdf, hres2⟩ := h1
      subst hdf
      exact hout

theorem resolve_service_eq (cols : List String) (canonical : String) :
    _resolve_service_col cols canonical =
      if cols.contains canonical = true then some canonical
      else _guess_col cols [] (pySplitWs canonical) := by
  by_cases h : cols.contains canonical = true
  · rw [if_pos h]
    have hg : _guess_col cols [canonical] [] = some canonical := by
      show (match (if cols.contains canonical = true then some canonical else guessExact cols [])
          with
        | some t => some t
        | none => if ([] : List String).isEmpty = true then none else guessFuzzy [] cols) =
        some canonical
      rw [if_pos h]
    unfold _resolve_service_col
    rw [hg]
  · rw [if_neg h]
    have hg : _guess_col cols [canonical] [] = none := by
      show (match (if cols.contains canonical = true then some canonical else guessExact cols [])
          with
        | some t => some t
        | none => if ([] : List String).isEmpty = true then none else guessFuzzy [] cols) =
        none
      rw [if_neg h]
      rfl
    unfold _resolve_service_col
    rw [hg]

theorem resolve_service_none_parts (cols : List String) (canonical : String)
    (h : _resolve_service_col cols canonical = none) :
    cols.contains canonical = false ∧ _guess_col cols [] (pySplitWs canonical) = none := by
  rw [resolve_service_eq] at h
  by_cases hc : cols.contains canonical = true
  · rw [if_pos hc] at h
    exact Option.noConfusion h
  · rw [if_neg hc] at h
    exact ⟨bool_eq_false hc, h⟩

theorem guess_fuzzy_col_append (cols extra toks : List String)
    (h : _guess_col cols [] toks = none)
    (hx : ∀ e ∈ extra, toks.all (fun tok => pyIn tok e) = false) :
    _guess_col (cols ++ extra) [] toks = none := by
  have heq : _guess_col (cols ++ extra) [] toks =
      if toks.isEmpty = true then none else guessFuzzy toks (cols ++ extra) := rfl
  have heq2 : _guess_col cols [] toks =
      if toks.isEmpty = true then none else guessFuzzy toks cols := rfl
  by_cases he : toks.isEmpty = true
  · rw [heq, if_pos he]
  · rw [heq2, if_neg he] at h
    rw [heq, if_neg he]
    rw [guessFuzzy_eq] at h ⊢
    rw [List.find?_append, h, Option.none_or]
    rw [List.find?_eq_none]
    intro x hx2
    rw [hx x hx2]
    simp

theorem resolve_service_none_extend (cols : List String) (canonical : String)
    (extra : List String)
    (h : _resolve_service_col cols canonical = none)
    (hx : ∀ e ∈ extra, e ≠ canonical ∧
      (pySplitWs canonical).all (fun tok => pyIn tok e) = false) :
    _resolve_service_col (cols ++ extra) canonical = none := by
  obtain ⟨h1, h2⟩ := resolve_service_none_parts cols canonical h
  rw [resolve_service_eq]
  have hcontains : (cols ++ extra).contains canonical = false := by
    rw [contains_false_iff] at h1 ⊢
    intro hmem
    rcases List.mem_append.mp hmem with hm | hm
    · exact h1 hm
    · exact (hx canonical hm).1 rfl
  rw [hcontains, if_neg Bool.false_ne_true]
  exact guess_fuzzy_col_append cols extra _ h2 (fun e he => (hx e he).2)

theorem service_no_cross (k k' : ServiceKey) (h : k ≠ k') :
    SERVICE_CANONICAL k' ≠ SERVICE_CANONICAL k ∧
      (pySplitWs (SERVICE_CANONICAL k)).all
        (fun tok => pyIn tok (SERVICE_CANONICAL k')) = false := by
  cases k <;> cases k' <;>
    first
    | exact absurd rfl h
    | exact ⟨by decide, by decide⟩

theorem resolvedGet_cons (k0 : ServiceKey) (c : String) (rest : List (ServiceKey × String))
    (k : ServiceKey) :
    resolvedGet ((k0, c) :: rest) k = if k0 = k then c else resolvedGet rest k := by
  by_cases h : k0 = k
  · rw [if_pos h]
    unfold resolvedGet
    rw [@List.find?_cons_of_pos _ (fun p => decide (p.1 = k)) (k0, c) rest (by simp [h])]
  · rw [if_neg h]
    unfold resolvedGet
    rw [@List.find?_cons_of_neg _ (fun p => decide (p.1 = k)) (k0, c) rest (by simp [h])]

theorem resolveServices_preserve (ks : List ServiceKey) :
    ∀ (cols : List String) (df : List Row) (col : String),
      (∀ k' ∈ ks, SERVICE_CANONICAL k' ≠ col) →
      (∀ r ∈ df, rowGet r col = "no") →
      ∀ r ∈ (resolveServices ks cols df).2.1, rowGet r col = "no" := by
  induction ks with
  | nil =>
    intro cols df col _ hdf r hr
    exact hdf r hr
  | cons k ks ih =>
    intro cols df col hk hdf r hr
    cases hres : _resolve_service_col cols (SERVICE_CANONICAL k) with
    | some c =>
      rw [resolveServices_cons_some k ks cols df c hres] at hr
      exact ih cols df col (fun k' h' => hk k' (List.mem_cons_of_mem _ h')) hdf r hr
    | none =>
      rw [resolveServices_cons_none k ks cols df hres] at hr
      refine ih _ _ col (fun k' h' => hk k' (List.mem_cons_of_mem _ h')) ?_ r hr
      intro r2 hr2
      rcases List.mem_map.mp hr2 with ⟨r0, hr0, rfl⟩
      rw [rowGet_dictSet_other _ _ _ _ (fun hh => hk k (List.mem_cons_self k ks) hh.symm)]
      exact hdf r0 hr0

theorem resolveServices_unresolved (ks : List ServiceKey) :
    ∀ (cols : List String) (df : List Row) (k : ServiceKey),
      ks.Nodup → k ∈ ks →
      _resolve_service_col cols (SERVICE_CANONICAL k) = none →
      resolvedGet (resolveServices ks cols df).2.2 k = SERVICE_CANONICAL k ∧
      ∀ r ∈ (resolveServices ks cols df).2.1, rowGet r (SERVICE_CANONICAL k) = "no" := by
  induction ks with
  | nil =>
    intro cols df k _ hk _
    exact absurd hk (List.not_mem_nil k)
  | cons k0 ks ih =>
    intro cols df k hnd hk hres
    rw [List.nodup_cons] at hnd
    by_cases hkk : k = k0
    · subst hkk
      rw [resolveServices_cons_none k ks cols df hres]
      constructor
      · rw [resolvedGet_cons, if_pos rfl]
      · intro r hr
        refine resolveServices_preserve ks _ _ _ ?_ ?_ r hr
        · intro k' h'
          have hne : k' ≠ k := fun he => hnd.1 (he ▸ h')
          exact (service_no_cross k k' (Ne.symm hne)).1
        · intro r2 hr2
          rcases List.mem_map.mp hr2 with ⟨r0, _, rfl⟩
          exact rowGet_dictSet_same r0 _ _
    · have hk' : k ∈ ks := by
        rcases List.mem_cons.mp hk with h | h
        · exact absurd h hkk
        · exact h
      cases hres0 : _resolve_service_col cols (SERVICE_CANONICAL k0) with
      | some c =>
        rw [resolveServices_cons_some k0 ks cols df c hres0]
        refine ⟨?_, (ih cols df k hnd.2 hk' hres).2⟩
        rw [resolvedGet_cons, if_neg (fun he => hkk he.symm)]
        exact (ih cols df k hnd.2 hk' hres).1
      | none =>
        rw [resolveServices_cons_none k0 ks cols df hres0]
        have hres2 : _resolve_service_col (cols ++ [SERVICE_CANONICAL k0])
            (SERVICE_CANONICAL k) = none := by
          refine resolve_service_none_extend cols _ _ hres ?_
          intro e he
          rw [List.mem_singleton] at he
          subst he
          exact ⟨(service_no_cross k k0 hkk).1, (service_no_cross k k0 hkk).2⟩
        refine ⟨?_, (ih _ _ k hnd.2 hk' hres2).2⟩
        rw [resolvedGet_cons, if_neg (fun he => hkk he.symm)]
        exact (ih _ _ k hnd.2 hk' hres2).1

/-- C6: when a service field cannot be resolved against the loaded columns,
the load still succeeds, the field is mapped to the synthetic canonical
column holding `"no"` in every row, and every query against that field
evaluates to not serviceable. -/
theorem unresolved_service_defaults_no (headers : List String) (rows : List (List String))
    (k : ServiceKey)
    (hp : (_resolve_pincode_col (headers.map _normalize_header)).isSome = true) :
    ∃ df res, load_data headers rows = Except.ok (df, res) ∧
      (_resolve_service_col (renamedCols headers) (SERVICE_CANONICAL k) = none →
        resolvedGet res k = SERVICE_CANONICAL k ∧
        ∀ r ∈ df, rowGet r (SERVICE_CANONICAL k) = "no" ∧
          (evaluate (resolvedGet res) k r).serviceableFlag = false) := by
  cases hres : _resolve_pincode_col (headers.map _normalize_header) with
  | none =>
    rw [hres] at hp
    exact absurd hp (by simp)
  | some c =>
    simp only [load_data, hres]
    cases hfind : (resolveServices SERVICE_KEYS (renamedCols headers)
        ((rows.map (fun r => (renamedCols headers).zip r)).map
          (fun r => dictSet r "pincode" (_digits_only (rowGet r "pincode"))))).1.find?
        (fun c => pyIn "remark" c || pyIn "note" c) with
    | some rc =>
      refine ⟨_, _, rfl, ?_⟩
      intro hsvc
      obtain ⟨hresget, hrows⟩ := resolveServices_unresolved SERVICE_KEYS
        (renamedCols headers) _ k (by decide) (by cases k <;> decide) hsvc
      refine ⟨hresget, ?_⟩
      intro r hr
      rcases List.mem_map.mp hr with ⟨r2, hr2, rfl⟩
      have hrcne : rc ≠ SERVICE_CANONICAL k := by
        intro he
        have hpred := List.find?_some hfind
        rw [he] at hpred
        have hfalse : (pyIn "remark" (SERVICE_CANONICAL k) ||
            pyIn "note" (SERVICE_CANONICAL k)) = false := by
          cases k <;> decide
        rw [hfalse] at hpred
        exact Bool.false_ne_true hpred
      have hremark_ne : "remark" ≠ SERVICE_CANONICAL k := by cases k <;> decide
      have hcell : rowGet (r2.map (fun p => (if p.1 == rc then "remark" else p.1, p.2)))
          (SERVICE_CANONICAL k) = "no" := by
        rw [rowGet_renameKey r2 rc _ hrcne hremark_ne]
        exact hrows r2 hr2
      refine ⟨hcell, ?_⟩
      rw [evaluate_serviceable_eq, hresget, hcell]
      decide
    | none =>
      refine ⟨_, _, rfl, ?_⟩
      intro hsvc
      obtain ⟨hresget, hrows⟩ := resolveServices_unresolved SERVICE_KEYS
        (renamedCols headers) _ k (by decide) (by cases k <;> decide) hsvc
      refine ⟨hresget, ?_⟩
      intro r hr
      refine ⟨hrows r hr, ?_⟩
      rw [evaluate_serviceable_eq, hresget, hrows r hr]
      decide

theorem pyDedupGo_sublist (l : List String) : ∀ seen, List.Sublist (pyDedupGo seen l) l := by
  induction l with
  | nil =>
    intro seen
    exact List.nil_sublist []
  | cons x xs ih =>
    intro seen
    simp only [pyDedupGo]
    by_cases h : seen.contains x = true
    · rw [if_pos h]
      exact List.Sublist.cons x (ih seen)
    · rw [if_neg h]
      exact List.Sublist.cons₂ x (ih (x :: seen))

theorem pyDedupGo_mem (l : List String) : ∀ (seen : List String) (x : String),
    x ∈ pyDedupGo seen l ↔ (x ∈ l ∧ x ∉ seen) := by
  induction l with
  | nil =>
    intro seen x
    simp [pyDedupGo]
  | cons y ys ih =>
    intro seen x
    simp only [pyDedupGo]
    by_cases h : seen.contains y = true
    · rw [if_pos h, ih seen x]
      have hy : y ∈ seen := List.elem_iff.mp h
      constructor
      · rintro ⟨hx, hs⟩
        exact ⟨List.mem_cons_of_mem _ hx, hs⟩
      · rintro ⟨hx, hs⟩
        rcases List.mem_cons.mp hx with rfl | hx2
        · exact absurd hy hs
        · exact ⟨hx2, hs⟩
    · rw [if_neg h]
      have hy : y ∉ seen := (contains_false_iff seen y).mp (bool_eq_false h)
      constructor
      · intro hx
        rcases List.mem_cons.mp hx with rfl | hx2
        · exact ⟨List.mem_cons_self _ _, hy⟩
        · rw [ih (y :: seen) x] at hx2
          refine ⟨List.mem_cons_of_mem _ hx2.1, ?_⟩
          intro hs
          exact hx2.2 (List.mem_cons_of_mem _ hs)
      · rintro ⟨hx, hs⟩
        rcases List.mem_cons.mp hx with rfl | hx2
        · exact List.mem_cons_self _ _
        · by_cases hxy : x = y
          · subst hxy
            exact List.mem_cons_self _ _
          · refine List.mem_cons_of_mem _ ?_
            rw [ih (y :: seen) x]
            refine ⟨hx2, fun hm => ?_⟩
            rcases List.mem_cons.mp hm with h1 | h1
            · exact hxy h1
            · exact hs h1

theorem pyDedupGo_nodup (l : List String) : ∀ seen, (pyDedupGo seen l).Nodup := by
  induction l with
  | nil =>
    intro seen
    exact List.nodup_nil
  | cons y ys ih =>
    intro seen
    simp only [pyDedupGo]
    by_cases h : seen.contains y = true
    · rw [if_pos h]
      exact ih seen
    · rw [if_neg h]
      rw [List.nodup_cons]
      refine ⟨?_, ih (y :: seen)⟩
      intro hmem
      rw [pyDedupGo_mem] at hmem
      exact hmem.2 (List.mem_cons_self _ _)

/-- C9: for a non-empty configured URL the candidate generator produces, in
order, the URL as-is, the CSV-forced variant, the CSV-forced variant with
the `single` parameter removed, and the cache-busting variant — with
duplicates removed while preserving first-occurrence order (the output is
duplicate-free, a sublist of that four-candidate list containing exactly
its elements, and starts with the URL as-is). -/
theorem variants_structure (u : String) (hu : u ≠ "") :
    _variants_of_sheet_url u = pyDedup [u, forceCsvUrl u, dropSingleUrl u, cacheBustUrl u] ∧
    List.Sublist (_variants_of_sheet_url u)
      [u, forceCsvUrl u, dropSingleUrl u, cacheBustUrl u] ∧
    (_variants_of_sheet_url u).Nodup ∧
    (∀ v, v ∈ _variants_of_sheet_url u ↔
      v ∈ [u, forceCsvUrl u, dropSingleUrl u, cacheBustUrl u]) ∧
    (_variants_of_sheet_url u).head? = some u := by
  have he : _variants_of_sheet_url u =
      pyDedup [u, forceCsvUrl u, dropSingleUrl u, cacheBustUrl u] := by
    simp only [_variants_of_sheet_url, if_neg hu]
    rfl
  refine ⟨he, ?_, ?_, ?_, ?_⟩
  · rw [he]
    exact pyDedupGo_sublist _ []
  · rw [he]
    exact pyDedupGo_nodup _ []
  · intro v
    rw [he]
    unfold pyDedup
    rw [pyDedupGo_mem]
    simp
  · rw [he]
    rfl

theorem load_pincode_digits_witness :
    wDf.length = wRows.length ∧
    (∀ i : Nat, wDf[i]?.map (fun r => rowGet r "pincode") =
      wRows[i]?.map (fun r => _digits_only (rawPinCell wHeaders r))) ∧
    (∀ r ∈ wDf, (rowGet r "pincode").data.all pyIsDigit = true) :=
  load_pincode_digits wHeaders wRows wDf wRes (by rfl)

theorem unresolved_service_defaults_no_witness :
    ∃ df res, load_data wHeaders wRows = Except.ok (df, res) ∧
      (_resolve_service_col (renamedCols wHeaders)
          (SERVICE_CANONICAL ServiceKey.fourWBattery) = none →
        resolvedGet res ServiceKey.fourWBattery = SERVICE_CANONICAL ServiceKey.fourWBattery ∧
        ∀ r ∈ df, rowGet r (SERVICE_CANONICAL ServiceKey.fourWBattery) = "no" ∧
          (evaluate (resolvedGet res) ServiceKey.fourWBattery r).serviceableFlag = false) :=
  unresolved_service_defaults_no wHeaders wRows ServiceKey.fourWBattery (by decide)

theorem invalid_pin_validation_witness :
    check [] SC0 ServiceKey.fourWTyre "40000" = CheckResult.invalidPin ∧
    check [wRow400] SC0 ServiceKey.fourWTyre "400001" ≠ CheckResult.invalidPin := by
  constructor
  · exact (invalid_pin_validation [] SC0 ServiceKey.fourWTyre "40000").1.mpr (by decide)
  · intro hc
    exact absurd ((invalid_pin_validation [wRow400] SC0 ServiceKey.fourWTyre "400001").1.mp hc)
      (by decide)

theorem variants_structure_witness :
    _variants_of_sheet_url wUrl =
      pyDedup [wUrl, forceCsvUrl wUrl, dropSingleUrl wUrl, cacheBustUrl wUrl] ∧
    List.Sublist (_variants_of_sheet_url wUrl)
      [wUrl, forceCsvUrl wUrl, dropSingleUrl wUrl, cacheBustUrl wUrl] ∧
    (_variants_of_sheet_url wUrl).Nodup ∧
    (∀ v, v ∈ _variants_of_sheet_url wUrl ↔
      v ∈ [wUrl, forceCsvUrl wUrl, dropSingleUrl wUrl, cacheBustUrl wUrl]) ∧
    (_variants_of_sheet_url wUrl).head? = some wUrl :=
  variants_structure wUrl (by decide)

theorem first_matching_row_wins_witness :
    check ([wRow110] ++ wRow400 :: [wRow400b]) SC0 ServiceKey.fourWTyre "400001" =
      evaluate SC0 ServiceKey.fourWTyre wRow400 :=
  first_matching_row_wins [wRow110] wRow400 [wRow400b] SC0 ServiceKey.fourWTyre "400001"
    (by decide) (by decide) (by decide)
